import Mathlib

/-!
# too-simple-rss-reader: the subscription store and its refresh pass

A shallow embedding of `main.go`.  The process-wide `feedMap` is passed
explicitly; the external feed parser (`gofeed`'s `ParseURL`) is a function from
the URL to either an error or the parsed item list; the JSON decoder's outcome
is the handler's argument.  A Go map is an association list whose keys are
pairwise distinct (`FeedMap.WF`).
-/

namespace RssReader

/-! ## Data model -/

/-- One entry of a feed (`type FeedItem struct`). -/
structure FeedItem where
  title : String
  link : String
  read : Bool
deriving DecidableEq, Repr

/-- A subscription record (`type Feed struct`). -/
structure Feed where
  url : String
  read : Bool
  items : List FeedItem
deriving DecidableEq, Repr

/-- The fields of a `gofeed.Item` that the program reads. -/
structure ParsedItem where
  title : String
  link : String
deriving DecidableEq, Repr

/-- The outcome of `fp.ParseURL(url)`: an error, or the items of the parsed feed. -/
abbrev Parser := String → Except String (List ParsedItem)

/-- The type of the global `feedMap` (`map[string]Feed`). -/
abbrev FeedMap := List (String × Feed)

/-- The keys of the map. -/
def FeedMap.keys (m : FeedMap) : List String := m.map Prod.fst

/-- A Go map holds each key once. -/
def FeedMap.WF (m : FeedMap) : Prop := m.keys.Nodup

/-- Map read `feed, ok := feedMap[k]`. -/
def FeedMap.get : FeedMap → String → Option Feed
  | [], _ => none
  | (k', f) :: rest, k => if k' = k then some f else FeedMap.get rest k

/-- Map write `feedMap[k] = f`: replaces the value of an existing key, adds the key otherwise. -/
def FeedMap.set : FeedMap → String → Feed → FeedMap
  | [], k, f => [(k, f)]
  | (k', f') :: rest, k, f =>
      if k' = k then (k', f) :: rest else (k', f') :: FeedMap.set rest k f

/-- Map removal `delete(feedMap, k)`. -/
def FeedMap.delete (m : FeedMap) (k : String) : FeedMap :=
  m.filter (fun e => decide (e.1 ≠ k))

/-- The value of `http.StatusBadRequest`. -/
def StatusBadRequest : Nat := 400

/-- What a handler writes: `http.Error(w, msg, code)` or a JSON-encoded value. -/
inductive Response (α : Type) where
  | httpError (msg : String) (code : Nat)
  | json (v : α)
deriving DecidableEq, Repr

/-- The body of `markRead` after decoding. -/
structure Payload where
  url : String
  title : String
  read : Bool
deriving DecidableEq, Repr

/-! ## Operations -/

/-- The `FeedItem` built from a parsed item, at subscription and at refresh. -/
def newFeedItem (item : ParsedItem) : FeedItem :=
  { title := item.title, link := item.link, read := false }

/-- Function `parseAndAddFeed`: the error or the new feed, and the map afterwards. -/
def parseAndAddFeed (fp : Parser) (url : String) (feedMap : FeedMap) :
    Except String Feed × FeedMap :=
  match fp url with
  | .error err => (.error err, feedMap)
  | .ok parsedItems =>
      let feed : Feed := { url := url, read := false, items := parsedItems.map newFeedItem }
      (.ok feed, feedMap.set url feed)

/-- Handler `subscribeFeed`; `body` is `none` when the JSON decoding fails. -/
def subscribeFeed (fp : Parser) (body : Option Feed) (feedMap : FeedMap) :
    Response Feed × FeedMap :=
  match body with
  | none => (.httpError "Invalid JSON" StatusBadRequest, feedMap)
  | some feed =>
      match parseAndAddFeed fp feed.url feedMap with
      | (.error _, feedMap') => (.httpError "Invalid RSS URL" StatusBadRequest, feedMap')
      | (.ok newFeed, feedMap') => (.json newFeed, feedMap')

/-- Handler `listSubscribedFeeds`: the feeds of the map (in an order Go leaves open). -/
def listSubscribedFeeds (feedMap : FeedMap) : List Feed :=
  feedMap.foldl (fun feeds e => feeds ++ [e.2]) []

/-- Handler `deleteFeed`; `Feed{}` is the zero value. -/
def deleteFeed (body : Option Feed) (feedMap : FeedMap) : Response Feed × FeedMap :=
  match body with
  | none => (.httpError "Invalid JSON" StatusBadRequest, feedMap)
  | some feed => (.json { url := "", read := false, items := [] }, feedMap.delete feed.url)

/-- The loop of `markItemRead`: set the flag of the first item with the title, then `break`. -/
def markLoop (title : String) (read : Bool) : List FeedItem → List FeedItem
  | [] => []
  | item :: rest =>
      if item.title = title then { item with read := read } :: rest
      else item :: markLoop title read rest

/-- Handler `markItemRead`; `body` is `none` when the JSON decoding fails. -/
def markItemRead (body : Option Payload) (feedMap : FeedMap) : Response Feed × FeedMap :=
  match body with
  | none => (.httpError "Invalid JSON" StatusBadRequest, feedMap)
  | some payload =>
      match feedMap.get payload.url with
      | none => (.httpError "Feed not found" StatusBadRequest, feedMap)
      | some feed =>
          let feed' : Feed := { feed with items := markLoop payload.title payload.read feed.items }
          (.json feed', feedMap.set payload.url feed')

/-- The key set of the `existingItems` map built in `updateFeeds`. -/
def existingItems (items : List FeedItem) : List String :=
  items.foldl (fun existing item => item.title :: existing) []

/-- The second inner loop of `updateFeeds`: append the parsed items whose title is not a
key of `existing`. -/
def appendNewItems (existing : List String) (parsedItems : List ParsedItem)
    (items : List FeedItem) : List FeedItem :=
  parsedItems.foldl
    (fun items newItem =>
      if existing.contains newItem.title then items else items ++ [newFeedItem newItem])
    items

/-- One iteration of the loop of `updateFeeds`, for the key `url`: `range` hands the body
the value the map holds for the key at that moment (the loop adds and removes no key, so a
key met by the loop is always present). -/
def updateFeed (fp : Parser) (feedMap : FeedMap) (url : String) : FeedMap :=
  match feedMap.get url with
  | none => feedMap
  | some feed =>
      match fp url with
      | .error _ => feedMap
      | .ok parsedItems =>
          let existing := existingItems feed.items
          feedMap.set url { feed with items := appendNewItems existing parsedItems feed.items }

/-- Function `updateFeeds`: one refresh pass over the keys of the map. -/
def updateFeeds (fp : Parser) (feedMap : FeedMap) : FeedMap :=
  feedMap.keys.foldl (updateFeed fp) feedMap

/-! ## Lock and parser events -/

/-- The calls on `feedMapMutex` and on the parser, in the order a function makes them. -/
inductive Event where
  | lock
  | unlock
  | rLock
  | rUnlock
  | parseURL (url : String)
deriving DecidableEq, Repr

/-- Function `parseAndAddFeed` with the events it makes. -/
def parseAndAddFeedEvents (fp : Parser) (url : String) (feedMap : FeedMap) :
    List Event × Except String Feed × FeedMap :=
  match fp url with
  | .error err => ([.parseURL url], .error err, feedMap)
  | .ok parsedItems =>
      let feed : Feed := { url := url, read := false, items := parsedItems.map newFeedItem }
      ([.parseURL url, .lock, .unlock], .ok feed, feedMap.set url feed)

/-- One iteration of the loop of `updateFeeds` with the events it makes. -/
def updateFeedEvents (fp : Parser) (st : List Event × FeedMap) (url : String) :
    List Event × FeedMap :=
  (st.1 ++ [.parseURL url], updateFeed fp st.2 url)

/-- Function `updateFeeds` with the events it makes. -/
def updateFeedsEvents (fp : Parser) (feedMap : FeedMap) : List Event × FeedMap :=
  let st := feedMap.keys.foldl (updateFeedEvents fp) ([.lock], feedMap)
  (st.1 ++ [.unlock], st.2)

/-- Whether some parser call of the event list is made while the writer lock is held
(`held` is the state of the lock before the first event). -/
def parsesUnderLock : Bool → List Event → Bool
  | _, [] => false
  | _, .lock :: rest => parsesUnderLock true rest
  | _, .unlock :: rest => parsesUnderLock false rest
  | held, .parseURL _ :: rest => held || parsesUnderLock held rest
  | held, _ :: rest => parsesUnderLock held rest

/-! ## Reachable stores -/

/-- The stores the service can be in, starting from the empty map, when every list the
parser returns satisfies `ok`. -/
inductive Reachable (ok : List ParsedItem → Prop) : FeedMap → Prop where
  | empty : Reachable ok []
  | subscribe (fp : Parser) (body : Option Feed) (m : FeedMap) :
      Reachable ok m → (∀ u parsed, fp u = .ok parsed → ok parsed) →
      Reachable ok (subscribeFeed fp body m).2
  | delete (body : Option Feed) (m : FeedMap) :
      Reachable ok m → Reachable ok (deleteFeed body m).2
  | markRead (body : Option Payload) (m : FeedMap) :
      Reachable ok m → Reachable ok (markItemRead body m).2
  | refresh (fp : Parser) (m : FeedMap) :
      Reachable ok m → (∀ u parsed, fp u = .ok parsed → ok parsed) →
      Reachable ok (updateFeeds fp m)

/-- No restriction on what the parser returns. -/
def anyParse : List ParsedItem → Prop := fun _ => True

/-- The parsed list has no two items with the same title. -/
def distinctTitles : List ParsedItem → Prop := fun parsed => (parsed.map (·.title)).Nodup

/-- Every feed is stored under its own URL. -/
def FeedMap.KeyedByUrl (m : FeedMap) : Prop := ∀ e ∈ m, e.2.url = e.1

/-- What one refresh pass does to the feed stored under `url`. -/
def refreshed (fp : Parser) (url : String) (feed : Feed) : Feed :=
  match fp url with
  | .error _ => feed
  | .ok parsedItems =>
      { feed with items := appendNewItems (existingItems feed.items) parsedItems feed.items }

/-! ## Notions used in the statements -/

/-- The items a refresh pass appends to a feed with items `items` when the parser returns
`parsedItems`. -/
def discovered (items : List FeedItem) (parsedItems : List ParsedItem) : List FeedItem :=
  (parsedItems.filter (fun p => decide (p.title ∉ items.map (·.title)))).map newFeedItem

/-- Whether position `i` of `items` is the first one whose title is `t`. -/
def firstWithTitle (t : String) (items : List FeedItem) (i : Nat) : Prop :=
  items[i]?.map (·.title) = some t ∧ ∀ j, j < i → items[j]?.map (·.title) ≠ some t

instance (t : String) (items : List FeedItem) (i : Nat) :
    Decidable (firstWithTitle t items i) := by
  unfold firstWithTitle
  infer_instance

/-- No two items of a stored feed have the same title. -/
def FeedMap.TitlesUnique (m : FeedMap) : Prop :=
  ∀ e ∈ m, (e.2.items.map (·.title)).Nodup

/-! ## Sample data -/

/-- A feed with items `A` (read) and `B` (unread). -/
def sampleFeed : Feed :=
  { url := "u", read := false,
    items := [{ title := "A", link := "a1", read := true },
              { title := "B", link := "b1", read := false }] }

/-- A store holding `sampleFeed` under its URL. -/
def sampleStore : FeedMap := [("u", sampleFeed)]

/-- Upstream lost `B` and moved the link of `A`. -/
def parserOnlyA : Parser := fun _ => .ok [{ title := "A", link := "a2" }]

/-- Upstream has `A`, `B` and the new `C`. -/
def parserABC : Parser := fun _ =>
  .ok [{ title := "A", link := "a2" }, { title := "B", link := "b1" }, { title := "C", link := "c1" }]

/-- Every fetch fails. -/
def parserDown : Parser := fun _ => .error "fetch failed"

/-- The body `{"url": "u"}` after decoding. -/
def bodyU : Feed := { url := "u", read := false, items := [] }

/-- The body `{"url": "w"}` after decoding. -/
def bodyW : Feed := { url := "w", read := false, items := [] }

/-- The store after subscribing `u` (upstream `[A, B, C]`) and marking `A` read. -/
def markedStore : FeedMap :=
  (markItemRead (some { url := "u", title := "A", read := true })
    (subscribeFeed parserABC (some bodyU) []).2).2

/-- The store after subscribing `u` (upstream `[A, B, C]`) and `w` (upstream `[A]`). -/
def twoFeeds : FeedMap :=
  (subscribeFeed parserOnlyA (some bodyW) (subscribeFeed parserABC (some bodyU) []).2).2

/-- Upstream lists the new title `C` twice. -/
def parserCC : Parser := fun _ =>
  .ok [{ title := "C", link := "c1" }, { title := "C", link := "c2" }]

/-- The store after subscribing `u` when upstream has `[A]`. -/
def storeA : FeedMap := (subscribeFeed parserOnlyA (some bodyU) []).2

/-- The store after subscribing `u` when upstream lists the title `C` twice. -/
def storeCC : FeedMap := (subscribeFeed parserCC (some bodyU) []).2

/-! ## The inner loops of the refresh pass -/

theorem existingItems_foldl (items : List FeedItem) (acc : List String) (t : String) :
    t ∈ items.foldl (fun existing item => item.title :: existing) acc ↔
      t ∈ items.map (·.title) ∨ t ∈ acc := by
  induction items generalizing acc with
  | nil => simp
  | cons item rest ih =>
      simp only [List.foldl_cons, List.map_cons, List.mem_cons]
      rw [ih]
      simp only [List.mem_cons]
      tauto

theorem mem_existingItems (items : List FeedItem) (t : String) :
    t ∈ existingItems items ↔ t ∈ items.map (·.title) := by
  unfold existingItems
  rw [existingItems_foldl]
  simp

theorem appendNewItems_eq (existing : List String) (parsedItems : List ParsedItem)
    (items : List FeedItem) :
    appendNewItems existing parsedItems items =
      items ++ (parsedItems.filter (fun p => decide (p.title ∉ existing))).map newFeedItem := by
  unfold appendNewItems
  induction parsedItems generalizing items with
  | nil => simp
  | cons p rest ih =>
      simp only [List.foldl_cons]
      rw [ih]
      by_cases h : p.title ∈ existing
      · simp [h, List.filter_cons]
      · simp [h, List.filter_cons]

theorem appendNewItems_existing (parsedItems : List ParsedItem) (items : List FeedItem) :
    appendNewItems (existingItems items) parsedItems items =
      items ++ discovered items parsedItems := by
  rw [appendNewItems_eq]
  unfold discovered
  congr 2
  apply List.filter_congr
  intro p _
  simp only [mem_existingItems]

theorem discovered_title_mem (items : List FeedItem) (parsedItems : List ParsedItem)
    (p : ParsedItem) (hp : p ∈ parsedItems) :
    p.title ∈ (items ++ discovered items parsedItems).map (·.title) := by
  by_cases h : p.title ∈ items.map (·.title)
  · simp only [List.map_append, List.mem_append]
    exact Or.inl h
  · simp only [List.map_append, List.mem_append]
    refine Or.inr ?_
    unfold discovered
    refine List.mem_map.mpr ⟨newFeedItem p, List.mem_map.mpr ⟨p, ?_, rfl⟩, rfl⟩
    exact List.mem_filter.mpr ⟨hp, decide_eq_true h⟩

theorem discovered_again (items : List FeedItem) (parsedItems : List ParsedItem) :
    discovered (items ++ discovered items parsedItems) parsedItems = [] := by
  unfold discovered
  rw [List.map_eq_nil_iff, List.filter_eq_nil_iff]
  intro p hp
  have := discovered_title_mem items parsedItems p hp
  unfold discovered at this
  simp only [decide_eq_true_eq, not_not]
  exact this

theorem refreshed_items (fp : Parser) (url : String) (feed : Feed) :
    refreshed fp url feed =
      match fp url with
      | .error _ => feed
      | .ok parsedItems => { feed with items := feed.items ++ discovered feed.items parsedItems } := by
  unfold refreshed
  cases fp url with
  | error e => rfl
  | ok parsedItems => simp only [appendNewItems_existing]

theorem refreshed_idem (fp : Parser) (url : String) (feed : Feed) :
    refreshed fp url (refreshed fp url feed) = refreshed fp url feed := by
  rw [refreshed_items, refreshed_items]
  cases h : fp url with
  | error e => simp
  | ok parsedItems => simp [discovered_again]

/-! ## The map operations -/

theorem get_set (m : FeedMap) (k k' : String) (f : Feed) :
    (m.set k f).get k' = if k = k' then some f else m.get k' := by
  induction m with
  | nil => simp [FeedMap.set, FeedMap.get]
  | cons e rest ih =>
      obtain ⟨k0, f0⟩ := e
      by_cases h0 : k0 = k
      · subst h0
        by_cases h1 : k0 = k' <;> simp [FeedMap.set, FeedMap.get, h1]
      · by_cases h1 : k0 = k'
        · subst h1
          have : ¬ k = k0 := fun h => h0 h.symm
          simp [FeedMap.set, FeedMap.get, h0, this]
        · simp [FeedMap.set, FeedMap.get, h0, h1, ih]

theorem get_eq_none_iff (m : FeedMap) (k : String) : m.get k = none ↔ k ∉ m.keys := by
  induction m with
  | nil => simp [FeedMap.get, FeedMap.keys]
  | cons e rest ih =>
      obtain ⟨k0, f0⟩ := e
      by_cases h0 : k0 = k
      · simp [FeedMap.get, FeedMap.keys, h0]
      · have h1 : ¬ k = k0 := fun h => h0 h.symm
        simp only [FeedMap.keys] at ih
        simp [FeedMap.get, FeedMap.keys, h0, h1, ih]

theorem keys_set_of_mem (m : FeedMap) (k : String) (f : Feed) (hk : k ∈ m.keys) :
    (m.set k f).keys = m.keys := by
  induction m with
  | nil => simp [FeedMap.keys] at hk
  | cons e rest ih =>
      obtain ⟨k0, f0⟩ := e
      by_cases h0 : k0 = k
      · simp [FeedMap.set, FeedMap.keys, h0]
      · have h1 : ¬ k = k0 := fun h => h0 h.symm
        simp only [FeedMap.keys, List.map_cons, List.mem_cons, h1, false_or] at hk
        simp only [FeedMap.keys] at ih
        simp [FeedMap.set, FeedMap.keys, h0, ih hk]

theorem keys_set_of_not_mem (m : FeedMap) (k : String) (f : Feed) (hk : k ∉ m.keys) :
    (m.set k f).keys = m.keys ++ [k] := by
  induction m with
  | nil => simp [FeedMap.set, FeedMap.keys]
  | cons e rest ih =>
      obtain ⟨k0, f0⟩ := e
      simp only [FeedMap.keys, List.map_cons, List.mem_cons, not_or] at hk
      have h0 : ¬ k0 = k := fun h => hk.1 h.symm
      simp only [FeedMap.keys] at ih
      simp [FeedMap.set, FeedMap.keys, h0, ih hk.2]

theorem wf_set (m : FeedMap) (k : String) (f : Feed) (h : m.WF) : (m.set k f).WF := by
  unfold FeedMap.WF at *
  by_cases hk : k ∈ m.keys
  · rw [keys_set_of_mem m k f hk]
    exact h
  · rw [keys_set_of_not_mem m k f hk]
    rw [List.nodup_append]
    refine ⟨h, List.nodup_singleton k, ?_⟩
    intro a ha hb
    rw [List.mem_singleton] at hb
    exact hk (hb ▸ ha)

theorem wf_delete (m : FeedMap) (k : String) (h : m.WF) : (m.delete k).WF := by
  unfold FeedMap.WF FeedMap.keys FeedMap.delete at *
  exact (List.Nodup.sublist (List.Sublist.map _ (List.filter_sublist m)) h)

theorem get_delete (m : FeedMap) (k k' : String) :
    (m.delete k).get k' = if k' = k then none else m.get k' := by
  induction m with
  | nil => simp [FeedMap.delete, FeedMap.get]
  | cons e rest ih =>
      obtain ⟨k0, f0⟩ := e
      unfold FeedMap.delete at ih ⊢
      by_cases h0 : k0 = k
      · subst h0
        by_cases h1 : k' = k0
        · subst h1
          simpa [List.filter_cons] using ih
        · have h2 : ¬ k0 = k' := fun h => h1 h.symm
          simpa [List.filter_cons, FeedMap.get, h1, h2] using ih
      · by_cases h1 : k0 = k'
        · subst h1
          simp [List.filter_cons, FeedMap.get, h0]
        · simpa [List.filter_cons, FeedMap.get, h0, h1] using ih

theorem mem_of_get (m : FeedMap) (k : String) (f : Feed) (h : m.get k = some f) :
    (k, f) ∈ m := by
  induction m with
  | nil => simp [FeedMap.get] at h
  | cons e rest ih =>
      obtain ⟨k0, f0⟩ := e
      by_cases h0 : k0 = k
      · simp only [FeedMap.get, h0, if_true, Option.some.injEq] at h
        simp [h0, h]
      · simp only [FeedMap.get, h0, if_false] at h
        exact List.mem_cons_of_mem _ (ih h)

theorem get_of_mem (m : FeedMap) (k : String) (f : Feed) (hwf : m.WF) (h : (k, f) ∈ m) :
    m.get k = some f := by
  induction m with
  | nil => simp at h
  | cons e rest ih =>
      obtain ⟨k0, f0⟩ := e
      unfold FeedMap.WF FeedMap.keys at hwf ih
      simp only [List.map_cons, List.nodup_cons] at hwf
      rcases List.mem_cons.mp h with h1 | h1
      · injection h1 with hk hf
        simp [FeedMap.get, hk, hf]
      · have h0 : ¬ k0 = k := by
          intro hk
          apply hwf.1
          rw [hk]
          exact List.mem_map.mpr ⟨(k, f), h1, rfl⟩
        simp only [FeedMap.get, h0, if_false]
        exact ih hwf.2 h1

theorem listSubscribedFeeds_eq (m : FeedMap) : listSubscribedFeeds m = m.map Prod.snd := by
  unfold listSubscribedFeeds
  suffices h : ∀ acc : List Feed,
      List.foldl (fun feeds (e : String × Feed) => feeds ++ [e.2]) acc m = acc ++ m.map Prod.snd by
    simpa using h []
  induction m with
  | nil => simp
  | cons e rest ih => intro acc; simp [ih]

/-! ## The refresh pass, feed by feed -/

theorem get_append_of_not_mem (pre suf : FeedMap) (k : String) (hk : k ∉ pre.keys) :
    (pre ++ suf).get k = suf.get k := by
  induction pre with
  | nil => rfl
  | cons e rest ih =>
      obtain ⟨k0, f0⟩ := e
      simp only [FeedMap.keys, List.map_cons, List.mem_cons, not_or] at hk
      have h0 : ¬ k0 = k := fun h => hk.1 h.symm
      simp only [FeedMap.keys] at ih
      simp [FeedMap.get, h0, ih hk.2]

theorem set_append_of_not_mem (pre suf : FeedMap) (k : String) (f : Feed)
    (hk : k ∉ pre.keys) : (pre ++ suf).set k f = pre ++ suf.set k f := by
  induction pre with
  | nil => rfl
  | cons e rest ih =>
      obtain ⟨k0, f0⟩ := e
      simp only [FeedMap.keys, List.map_cons, List.mem_cons, not_or] at hk
      have h0 : ¬ k0 = k := fun h => hk.1 h.symm
      simp only [FeedMap.keys] at ih
      simp [FeedMap.set, h0, ih hk.2]

theorem updateFeed_at (fp : Parser) (pre rest : FeedMap) (k : String) (f : Feed)
    (hk : k ∉ pre.keys) :
    updateFeed fp (pre ++ (k, f) :: rest) k = pre ++ (k, refreshed fp k f) :: rest := by
  unfold updateFeed refreshed
  rw [get_append_of_not_mem pre _ k hk]
  simp only [FeedMap.get, if_true]
  cases fp k with
  | error e => rfl
  | ok parsedItems =>
      simp only []
      rw [set_append_of_not_mem pre _ k _ hk]
      simp [FeedMap.set]

theorem updateFeeds_from (fp : Parser) (suf pre : FeedMap) (h : (pre ++ suf).WF) :
    suf.keys.foldl (updateFeed fp) (pre ++ suf) =
      pre ++ suf.map (fun e => (e.1, refreshed fp e.1 e.2)) := by
  induction suf generalizing pre with
  | nil => simp [FeedMap.keys]
  | cons e rest ih =>
      obtain ⟨k, f⟩ := e
      have hk : k ∉ pre.keys := by
        unfold FeedMap.WF FeedMap.keys at h
        simp only [List.map_append, List.map_cons] at h
        have := (List.nodup_append.mp h).2.2
        intro hmem
        exact this hmem (List.mem_cons_self _ _)
      simp only [FeedMap.keys, List.map_cons, List.foldl_cons]
      rw [updateFeed_at fp pre rest k f hk]
      have h2 : ((pre ++ [(k, refreshed fp k f)]) ++ rest).WF := by
        unfold FeedMap.WF FeedMap.keys at h ⊢
        simpa using h
      have := ih (pre ++ [(k, refreshed fp k f)]) h2
      simp only [FeedMap.keys, List.append_assoc, List.singleton_append] at this
      rw [this]

theorem updateFeeds_eq_map (fp : Parser) (m : FeedMap) (h : m.WF) :
    updateFeeds fp m = m.map (fun e => (e.1, refreshed fp e.1 e.2)) := by
  have := updateFeeds_from fp m [] (by simpa using h)
  simpa [updateFeeds] using this

theorem keys_map_refreshed (fp : Parser) (m : FeedMap) :
    FeedMap.keys (m.map (fun e => (e.1, refreshed fp e.1 e.2))) = m.keys := by
  simp [FeedMap.keys, Function.comp_def]

theorem get_map_refreshed (fp : Parser) (m : FeedMap) (k : String) :
    FeedMap.get (m.map (fun e => (e.1, refreshed fp e.1 e.2))) k =
      (m.get k).map (refreshed fp k) := by
  induction m with
  | nil => rfl
  | cons e rest ih =>
      obtain ⟨k0, f0⟩ := e
      by_cases h0 : k0 = k
      · subst h0
        simp [FeedMap.get]
      · simp [FeedMap.get, h0, ih]

theorem wf_updateFeeds (fp : Parser) (m : FeedMap) (h : m.WF) : (updateFeeds fp m).WF := by
  rw [updateFeeds_eq_map fp m h]
  unfold FeedMap.WF
  rw [keys_map_refreshed]
  exact h

theorem get_updateFeeds (fp : Parser) (m : FeedMap) (h : m.WF) (k : String) :
    (updateFeeds fp m).get k = (m.get k).map (refreshed fp k) := by
  rw [updateFeeds_eq_map fp m h, get_map_refreshed]

theorem refreshed_url (fp : Parser) (k : String) (f : Feed) : (refreshed fp k f).url = f.url := by
  unfold refreshed
  cases fp k <;> rfl

/-! ## Invariants of the reachable stores -/

theorem wf_subscribeFeed (fp : Parser) (body : Option Feed) (m : FeedMap) (h : m.WF) :
    (subscribeFeed fp body m).2.WF := by
  unfold subscribeFeed parseAndAddFeed
  cases body with
  | none => exact h
  | some feed =>
      simp only []
      cases fp feed.url with
      | error e => exact h
      | ok parsedItems => exact wf_set _ _ _ h

theorem wf_markItemRead (body : Option Payload) (m : FeedMap) (h : m.WF) :
    (markItemRead body m).2.WF := by
  unfold markItemRead
  cases body with
  | none => exact h
  | some payload =>
      simp only []
      cases m.get payload.url with
      | none => exact h
      | some feed => exact wf_set _ _ _ h

theorem wf_deleteFeed (body : Option Feed) (m : FeedMap) (h : m.WF) :
    (deleteFeed body m).2.WF := by
  unfold deleteFeed
  cases body with
  | none => exact h
  | some feed => exact wf_delete _ _ h

theorem reachable_wf (ok : List ParsedItem → Prop) (m : FeedMap) (h : Reachable ok m) :
    m.WF := by
  induction h with
  | empty => simp [FeedMap.WF, FeedMap.keys]
  | subscribe fp body m _ _ ih => exact wf_subscribeFeed fp body m ih
  | delete body m _ ih => exact wf_deleteFeed body m ih
  | markRead body m _ ih => exact wf_markItemRead body m ih
  | refresh fp m _ _ ih => exact wf_updateFeeds fp m ih

theorem mem_set (m : FeedMap) (k : String) (f : Feed) (e : String × Feed)
    (he : e ∈ m.set k f) : e ∈ m ∨ e = (k, f) := by
  induction m with
  | nil =>
      simp only [FeedMap.set, List.mem_singleton] at he
      exact Or.inr he
  | cons e0 rest ih =>
      obtain ⟨k0, f0⟩ := e0
      by_cases h0 : k0 = k
      · simp only [FeedMap.set, h0, if_true, List.mem_cons] at he
        rcases he with he | he
        · exact Or.inr he
        · exact Or.inl (List.mem_cons_of_mem _ he)
      · simp only [FeedMap.set, h0, if_false, List.mem_cons] at he
        rcases he with he | he
        · exact Or.inl (he ▸ List.mem_cons_self _ _)
        · rcases ih he with h1 | h1
          · exact Or.inl (List.mem_cons_of_mem _ h1)
          · exact Or.inr h1

theorem keyed_set (m : FeedMap) (k : String) (f : Feed) (h : m.KeyedByUrl) (hf : f.url = k) :
    (m.set k f).KeyedByUrl := by
  intro e he
  rcases mem_set m k f e he with h1 | h1
  · exact h e h1
  · rw [h1]; exact hf

theorem reachable_keyed (ok : List ParsedItem → Prop) (m : FeedMap) (h : Reachable ok m) :
    m.KeyedByUrl := by
  induction h with
  | empty => intro e he; simp at he
  | subscribe fp body m _ _ ih =>
      unfold subscribeFeed parseAndAddFeed
      cases body with
      | none => exact ih
      | some feed =>
          simp only []
          cases fp feed.url with
          | error e => exact ih
          | ok parsedItems => exact keyed_set _ _ _ ih rfl
  | delete body m _ ih =>
      unfold deleteFeed
      cases body with
      | none => exact ih
      | some feed =>
          intro e he
          exact ih e (List.mem_of_mem_filter he)
  | markRead body m _ ih =>
      unfold markItemRead
      cases body with
      | none => exact ih
      | some payload =>
          simp only []
          cases hg : m.get payload.url with
          | none => exact ih
          | some feed =>
              refine keyed_set _ _ _ ih ?_
              exact ih _ (mem_of_get m _ _ hg)
  | refresh fp m hm _ ih =>
      rw [updateFeeds_eq_map fp m (reachable_wf ok m hm)]
      intro e he
      obtain ⟨e0, he0, rfl⟩ := List.mem_map.mp he
      simp only [refreshed_url]
      exact ih e0 he0

/-! ## Refresh keeps what is stored (C1) -/

/-- C1: one refresh pass keeps every item stored under a URL of the map, whatever the
parser returns for it: the feed after the pass is the feed before it with items added at the
end, so each stored item is found at the same position with the same title, link and read
flag, and each stored title is still a title of the feed. -/
theorem updateFeeds_keeps_items (fp : Parser) (m : FeedMap) (u : String) (f : Feed)
    (hwf : m.WF) (hu : m.get u = some f) :
    ∃ added : List FeedItem,
      (updateFeeds fp m).get u = some { f with items := f.items ++ added } ∧
      (∀ (i : Nat) (item : FeedItem), f.items[i]? = some item →
        (f.items ++ added)[i]? = some item) ∧
      (∀ t ∈ f.items.map (·.title), t ∈ (f.items ++ added).map (·.title)) := by
  have hget := get_updateFeeds fp m hwf u
  rw [hu, Option.map_some', refreshed_items] at hget
  have key : ∀ added : List FeedItem,
      (∀ (i : Nat) (item : FeedItem), f.items[i]? = some item →
        (f.items ++ added)[i]? = some item) ∧
      (∀ t ∈ f.items.map (·.title), t ∈ (f.items ++ added).map (·.title)) := by
    intro added
    constructor
    · intro i item hi
      have hlt : i < f.items.length := (List.getElem?_eq_some_iff.mp hi).1
      rw [List.getElem?_append_left hlt]
      exact hi
    · intro t ht
      rw [List.map_append, List.mem_append]
      exact Or.inl ht
  cases hfp : fp u with
  | error e =>
      rw [hfp] at hget
      refine ⟨[], ?_, key []⟩
      simpa using hget
  | ok parsedItems =>
      rw [hfp] at hget
      exact ⟨discovered f.items parsedItems, hget, key _⟩

/-- C1 at the store `[A, B]` when upstream only has `A` left. -/
theorem updateFeeds_keeps_items_witness :
    sampleStore.WF ∧ sampleStore.get "u" = some sampleFeed ∧
    ∃ added : List FeedItem,
      (updateFeeds parserOnlyA sampleStore).get "u" =
        some { sampleFeed with items := sampleFeed.items ++ added } ∧
      (∀ (i : Nat) (item : FeedItem), sampleFeed.items[i]? = some item →
        (sampleFeed.items ++ added)[i]? = some item) ∧
      (∀ t ∈ sampleFeed.items.map (·.title), t ∈ (sampleFeed.items ++ added).map (·.title)) :=
  ⟨by simp [FeedMap.WF, FeedMap.keys, sampleStore], by decide,
    updateFeeds_keeps_items parserOnlyA sampleStore "u" sampleFeed
      (by simp [FeedMap.WF, FeedMap.keys, sampleStore]) (by decide)⟩

/-! ## What refresh appends (C3) -/

/-- C3: when the parse of a stored URL succeeds, the refresh pass stores under it the old
feed followed by the parsed items whose title is not a title of the old feed, in parser
order, each with the parsed title and link and `read = false`; the parses of the other URLs
play no part. -/
theorem updateFeeds_appends_new (fp : Parser) (m : FeedMap) (u : String) (f : Feed)
    (parsed : List ParsedItem) (hwf : m.WF) (hu : m.get u = some f) (hp : fp u = .ok parsed) :
    (updateFeeds fp m).get u =
      some { f with
        items := f.items ++
          (parsed.filter (fun p => decide (p.title ∉ f.items.map (·.title)))).map
            (fun p => { title := p.title, link := p.link, read := false }) } := by
  have hget := get_updateFeeds fp m hwf u
  rw [hu, Option.map_some', refreshed_items, hp] at hget
  exact hget

/-- C3 at the store `[A (read), B]` when upstream has `[A, B, C]`. -/
theorem updateFeeds_appends_new_witness :
    (updateFeeds parserABC sampleStore).get "u" =
      some { url := "u", read := false,
             items := [{ title := "A", link := "a1", read := true },
                       { title := "B", link := "b1", read := false },
                       { title := "C", link := "c1", read := false }] } :=
  (updateFeeds_appends_new parserABC sampleStore "u" sampleFeed _
    (by simp [FeedMap.WF, FeedMap.keys, sampleStore]) (by decide) rfl).trans (by decide)

/-! ## Refresh twice (C4) -/

/-- C4: with the same parser results, a second refresh pass changes nothing: the map after
two passes is the map after one. -/
theorem updateFeeds_idempotent (fp : Parser) (m : FeedMap) (hwf : m.WF) :
    updateFeeds fp (updateFeeds fp m) = updateFeeds fp m := by
  rw [updateFeeds_eq_map fp (updateFeeds fp m) (wf_updateFeeds fp m hwf),
    updateFeeds_eq_map fp m hwf, List.map_map]
  apply List.map_congr_left
  intro e _
  simp only [Function.comp_apply, refreshed_idem]

/-- C4 at the store `[A, B]` when upstream has `[A, B, C]`. -/
theorem updateFeeds_idempotent_witness :
    sampleStore.WF ∧
    updateFeeds parserABC (updateFeeds parserABC sampleStore) =
      updateFeeds parserABC sampleStore :=
  ⟨by simp [FeedMap.WF, FeedMap.keys, sampleStore],
    updateFeeds_idempotent parserABC sampleStore
      (by simp [FeedMap.WF, FeedMap.keys, sampleStore])⟩

/-! ## Marking an item (C2, C9) -/

theorem firstWithTitle_zero (t : String) (item : FeedItem) (rest : List FeedItem) :
    firstWithTitle t (item :: rest) 0 ↔ item.title = t := by
  unfold firstWithTitle
  simp

theorem firstWithTitle_succ (t : String) (item : FeedItem) (rest : List FeedItem) (i : Nat) :
    firstWithTitle t (item :: rest) (i + 1) ↔ item.title ≠ t ∧ firstWithTitle t rest i := by
  unfold firstWithTitle
  constructor
  · rintro ⟨h1, h2⟩
    refine ⟨?_, by simpa using h1, ?_⟩
    · have := h2 0 (Nat.succ_pos i)
      simpa using this
    · intro j hj
      have := h2 (j + 1) (Nat.succ_lt_succ hj)
      simpa using this
  · rintro ⟨h0, h1, h2⟩
    refine ⟨by simpa using h1, ?_⟩
    intro j hj
    cases j with
    | zero => simpa using h0
    | succ j =>
        have := h2 j (Nat.lt_of_succ_lt_succ hj)
        simpa using this

theorem markLoop_getElem? (t : String) (v : Bool) (items : List FeedItem) (i : Nat)
    (item : FeedItem) (h : items[i]? = some item) :
    (markLoop t v items)[i]? =
      some { item with read := if firstWithTitle t items i then v else item.read } := by
  induction items generalizing i with
  | nil => simp at h
  | cons item0 rest ih =>
      by_cases h0 : item0.title = t
      · cases i with
        | zero =>
            simp only [List.getElem?_cons_zero, Option.some.injEq] at h
            subst h
            simp [markLoop, h0, firstWithTitle_zero]
        | succ i =>
            simp only [List.getElem?_cons_succ] at h
            simp [markLoop, h0, firstWithTitle_succ, h]
      · cases i with
        | zero =>
            simp only [List.getElem?_cons_zero, Option.some.injEq] at h
            subst h
            simp [markLoop, h0, firstWithTitle_zero]
        | succ i =>
            simp only [List.getElem?_cons_succ] at h
            have := ih i h
            simp only [markLoop, h0, if_false, List.getElem?_cons_succ, this,
              firstWithTitle_succ]
            simp [h0]

theorem markLoop_titles (t : String) (v : Bool) (items : List FeedItem) :
    (markLoop t v items).map (·.title) = items.map (·.title) := by
  induction items with
  | nil => rfl
  | cons item0 rest ih =>
      by_cases h0 : item0.title = t <;> simp [markLoop, h0, ih]

theorem markLoop_links (t : String) (v : Bool) (items : List FeedItem) :
    (markLoop t v items).map (·.link) = items.map (·.link) := by
  induction items with
  | nil => rfl
  | cons item0 rest ih =>
      by_cases h0 : item0.title = t <;> simp [markLoop, h0, ih]

theorem markLoop_of_not_mem (t : String) (v : Bool) (items : List FeedItem)
    (h : t ∉ items.map (·.title)) : markLoop t v items = items := by
  induction items with
  | nil => rfl
  | cons item0 rest ih =>
      simp only [List.map_cons, List.mem_cons, not_or] at h
      have h0 : ¬ item0.title = t := fun e => h.1 e.symm
      simp [markLoop, h0, ih h.2]

/-- C2: `markRead(u, t, v)` on a stored URL answers with the feed it stores under `u`; that
feed has the URL and feed flag of the old one and as many items, with the same titles and
links in the same order; at each position the item keeps its title and link, and its read
flag is `v` at the first position whose title is `t` and the old flag at every other
position; when no item has title `t` the feed is the old one. -/
theorem markItemRead_spec (m : FeedMap) (u t : String) (v : Bool) (f : Feed)
    (hu : m.get u = some f) :
    ∃ f' : Feed,
      (markItemRead (some { url := u, title := t, read := v }) m).1 = .json f' ∧
      (markItemRead (some { url := u, title := t, read := v }) m).2.get u = some f' ∧
      f'.url = f.url ∧ f'.read = f.read ∧
      f'.items.length = f.items.length ∧
      f'.items.map (·.title) = f.items.map (·.title) ∧
      f'.items.map (·.link) = f.items.map (·.link) ∧
      (∀ (i : Nat) (item : FeedItem), f.items[i]? = some item →
        ∃ item', f'.items[i]? = some item' ∧ item'.title = item.title ∧
          item'.link = item.link ∧
          (firstWithTitle t f.items i → item'.read = v) ∧
          (¬ firstWithTitle t f.items i → item'.read = item.read)) ∧
      (t ∉ f.items.map (·.title) → f' = f) := by
  refine ⟨{ f with items := markLoop t v f.items }, ?_, ?_, rfl, rfl, ?_,
    markLoop_titles t v f.items, markLoop_links t v f.items, ?_, ?_⟩
  · simp [markItemRead, hu]
  · simp [markItemRead, hu, get_set]
  · have := congrArg List.length (markLoop_titles t v f.items)
    simpa using this
  · intro i item hi
    have := markLoop_getElem? t v f.items i item hi
    refine ⟨_, this, rfl, rfl, ?_, ?_⟩
    · intro h; simp [h]
    · intro h; simp [h]
  · intro h
    simp [markLoop_of_not_mem t v f.items h]

/-- C2 at the store `[A (read), B]`: marking `B` read. -/
theorem markItemRead_spec_witness :
    sampleStore.get "u" = some sampleFeed ∧
    ∃ f' : Feed,
      (markItemRead (some { url := "u", title := "B", read := true }) sampleStore).1 = .json f' ∧
      (markItemRead (some { url := "u", title := "B", read := true }) sampleStore).2.get "u"
        = some f' ∧
      f'.url = sampleFeed.url ∧ f'.read = sampleFeed.read ∧
      f'.items.length = sampleFeed.items.length ∧
      f'.items.map (·.title) = sampleFeed.items.map (·.title) ∧
      f'.items.map (·.link) = sampleFeed.items.map (·.link) ∧
      (∀ (i : Nat) (item : FeedItem), sampleFeed.items[i]? = some item →
        ∃ item', f'.items[i]? = some item' ∧ item'.title = item.title ∧
          item'.link = item.link ∧
          (firstWithTitle "B" sampleFeed.items i → item'.read = true) ∧
          (¬ firstWithTitle "B" sampleFeed.items i → item'.read = item.read)) ∧
      ("B" ∉ sampleFeed.items.map (·.title) → f' = sampleFeed) :=
  ⟨by decide, markItemRead_spec sampleStore "u" "B" true sampleFeed (by decide)⟩

/-- C9: on a decoded payload `markRead` answers with an error exactly when the URL is not a
key of the map, and the error is 400 "Feed not found"; the map is then unchanged; for a
stored URL the answer is a feed, also when no item has the title, and the feed is then the
stored one and the map still holds it. -/
theorem markItemRead_error_iff (m : FeedMap) (payload : Payload) :
    (∀ (msg : String) (code : Nat),
      (markItemRead (some payload) m).1 = .httpError msg code ↔
        (msg = "Feed not found" ∧ code = 400 ∧ payload.url ∉ m.keys)) ∧
    (payload.url ∉ m.keys → (markItemRead (some payload) m).2 = m) ∧
    (∀ f : Feed, m.get payload.url = some f → payload.title ∉ f.items.map (·.title) →
      (markItemRead (some payload) m).1 = .json f ∧
      (markItemRead (some payload) m).2.get payload.url = some f) := by
  refine ⟨?_, ?_, ?_⟩
  · intro msg code
    cases hg : m.get payload.url with
    | none =>
        have hk := (get_eq_none_iff m payload.url).mp hg
        simp only [markItemRead, hg, Response.httpError.injEq, StatusBadRequest, hk,
          not_false_eq_true, and_true]
        constructor
        · rintro ⟨h1, h2⟩; exact ⟨h1.symm, h2.symm⟩
        · rintro ⟨h1, h2⟩; exact ⟨h1.symm, h2.symm⟩
    | some f =>
        have hk : ¬ payload.url ∉ m.keys := by
          intro h
          rw [← get_eq_none_iff, hg] at h
          exact Option.noConfusion h
        simp [markItemRead, hg, hk]
  · intro hk
    have hg := (get_eq_none_iff m payload.url).mpr hk
    simp [markItemRead, hg]
  · intro f hg ht
    simp [markItemRead, hg, markLoop_of_not_mem _ _ _ ht, get_set]

/-! ## Subscribing (C6, C7) -/

theorem filter_url_of_not_mem (m : FeedMap) (u : String) (hk : m.KeyedByUrl)
    (hu : u ∉ m.keys) : (m.map Prod.snd).filter (fun g => decide (g.url = u)) = [] := by
  rw [List.filter_eq_nil_iff]
  intro g hg
  obtain ⟨e, he, rfl⟩ := List.mem_map.mp hg
  simp only [decide_eq_true_eq]
  intro h
  apply hu
  rw [← h, hk e he]
  exact List.mem_map.mpr ⟨e, he, rfl⟩

theorem filter_url_set (m : FeedMap) (u : String) (feed : Feed) (hwf : m.WF)
    (hk : m.KeyedByUrl) (hf : feed.url = u) :
    ((m.set u feed).map Prod.snd).filter (fun g => decide (g.url = u)) = [feed] := by
  induction m with
  | nil => simp [FeedMap.set, hf]
  | cons e rest ih =>
      obtain ⟨k0, f0⟩ := e
      have hk0 : f0.url = k0 := hk (k0, f0) (List.mem_cons_self _ _)
      have hkr : FeedMap.KeyedByUrl rest := fun e he => hk e (List.mem_cons_of_mem _ he)
      unfold FeedMap.WF FeedMap.keys at hwf ih
      simp only [List.map_cons, List.nodup_cons] at hwf
      by_cases h0 : k0 = u
      · subst h0
        have := filter_url_of_not_mem rest k0 hkr hwf.1
        simp [FeedMap.set, List.filter_cons, hf, this]
      · have h1 : ¬ f0.url = u := by rw [hk0]; exact h0
        simp [FeedMap.set, h0, List.filter_cons, h1, ih hwf.2 hkr]

/-- C6: in a store the service can reach, subscribing a URL whose parse succeeds returns the
feed with that URL, feed flag `false` and the parsed items in parser order with their titles
and links and `read = false`; the handler answers with it; the listing afterwards holds that
feed and no other feed with the URL, whatever was stored under it before; its items are
empty exactly when the parsed list is. -/
theorem parseAndAddFeed_ok (fp : Parser) (m : FeedMap) (u : String)
    (parsed : List ParsedItem) (hr : Reachable anyParse m) (hp : fp u = .ok parsed) :
    ∃ feed : Feed,
      feed = { url := u, read := false,
               items := parsed.map (fun p => { title := p.title, link := p.link, read := false }) } ∧
      (parseAndAddFeed fp u m).1 = .ok feed ∧
      (∀ body : Feed, body.url = u → (subscribeFeed fp (some body) m).1 = .json feed) ∧
      (listSubscribedFeeds (parseAndAddFeed fp u m).2).filter (fun g => decide (g.url = u))
        = [feed] ∧
      (parseAndAddFeed fp u m).2.get u = some feed ∧
      (feed.items = [] ↔ parsed = []) := by
  refine ⟨_, rfl, ?_, ?_, ?_, ?_, ?_⟩
  · simp [parseAndAddFeed, hp, newFeedItem]
  · intro body hb
    simp [subscribeFeed, parseAndAddFeed, hb, hp, newFeedItem]
  · rw [listSubscribedFeeds_eq]
    simp only [parseAndAddFeed, hp]
    exact filter_url_set m u _ (reachable_wf _ m hr) (reachable_keyed _ m hr) rfl
  · simp [parseAndAddFeed, hp, get_set, newFeedItem]
  · simp

/-- C6 on a store that holds `A` (read), `B` and `C` under the URL: the read flag is gone. -/
theorem parseAndAddFeed_ok_witness :
    Reachable anyParse markedStore ∧ parserOnlyA "u" = .ok [{ title := "A", link := "a2" }] ∧
    ∃ feed : Feed,
      feed = { url := "u", read := false,
               items := [({ title := "A", link := "a2" } : ParsedItem)].map
                 (fun p => { title := p.title, link := p.link, read := false }) } ∧
      (parseAndAddFeed parserOnlyA "u" markedStore).1 = .ok feed ∧
      (∀ body : Feed, body.url = "u" →
        (subscribeFeed parserOnlyA (some body) markedStore).1 = .json feed) ∧
      (listSubscribedFeeds (parseAndAddFeed parserOnlyA "u" markedStore).2).filter
        (fun g => decide (g.url = "u")) = [feed] ∧
      (parseAndAddFeed parserOnlyA "u" markedStore).2.get "u" = some feed ∧
      (feed.items = [] ↔ [({ title := "A", link := "a2" } : ParsedItem)] = []) :=
  have hr : Reachable anyParse markedStore :=
    Reachable.markRead _ _ (Reachable.subscribe parserABC _ [] Reachable.empty
      (fun _ _ _ => trivial))
  ⟨hr, rfl, parseAndAddFeed_ok parserOnlyA markedStore "u" _ hr rfl⟩

/-- C7: when the parser fails for the URL, `parseAndAddFeed` returns the error and the map
it was given, the handler answers 400 "Invalid RSS URL" and leaves the map as it was, and on
the empty map the listing stays empty. -/
theorem parseAndAddFeed_error (fp : Parser) (m : FeedMap) (u err : String)
    (hp : fp u = .error err) :
    parseAndAddFeed fp u m = (.error err, m) ∧
    (∀ body : Feed, body.url = u →
      subscribeFeed fp (some body) m = (.httpError "Invalid RSS URL" 400, m)) ∧
    listSubscribedFeeds (parseAndAddFeed fp u []).2 = [] := by
  refine ⟨?_, ?_, ?_⟩
  · simp [parseAndAddFeed, hp]
  · intro body hb
    simp [subscribeFeed, parseAndAddFeed, hb, hp, StatusBadRequest]
  · simp [parseAndAddFeed, hp, listSubscribedFeeds]

/-- C7 for the URL of the repository's test, with every fetch failing. -/
theorem parseAndAddFeed_error_witness :
    parseAndAddFeed parserDown "invalid_rss_url" sampleStore = (.error "fetch failed", sampleStore) ∧
    (∀ body : Feed, body.url = "invalid_rss_url" →
      subscribeFeed parserDown (some body) sampleStore
        = (.httpError "Invalid RSS URL" 400, sampleStore)) ∧
    listSubscribedFeeds (parseAndAddFeed parserDown "invalid_rss_url" []).2 = [] :=
  parseAndAddFeed_error parserDown sampleStore "invalid_rss_url" "fetch failed" rfl

/-! ## Deleting (C8) -/

/-- C8: in a store the service can reach, `delete(u)` answers with the empty feed whether
or not `u` is stored; afterwards nothing is stored under `u`, no feed of the listing has
the URL `u`, and every other URL holds the feed it held, which is still in the listing. -/
theorem deleteFeed_spec (m : FeedMap) (body : Feed) (hr : Reachable anyParse m) :
    (deleteFeed (some body) m).1 = .json { url := "", read := false, items := [] } ∧
    (deleteFeed (some body) m).2.get body.url = none ∧
    (∀ g ∈ listSubscribedFeeds (deleteFeed (some body) m).2, g.url ≠ body.url) ∧
    (∀ k : String, k ≠ body.url → (deleteFeed (some body) m).2.get k = m.get k) ∧
    (∀ g ∈ listSubscribedFeeds m, g.url ≠ body.url →
      g ∈ listSubscribedFeeds (deleteFeed (some body) m).2) := by
  have hk := reachable_keyed _ m hr
  refine ⟨rfl, ?_, ?_, ?_, ?_⟩
  · simp [deleteFeed, get_delete]
  · intro g hg
    rw [listSubscribedFeeds_eq] at hg
    obtain ⟨e, he, rfl⟩ := List.mem_map.mp hg
    simp only [deleteFeed, FeedMap.delete] at he
    have h1 := List.mem_filter.mp he
    rw [hk e h1.1]
    simpa using h1.2
  · intro k hne
    simp [deleteFeed, get_delete, hne]
  · intro g hg hne
    rw [listSubscribedFeeds_eq] at hg ⊢
    obtain ⟨e, he, rfl⟩ := List.mem_map.mp hg
    refine List.mem_map.mpr ⟨e, ?_, rfl⟩
    simp only [deleteFeed, FeedMap.delete]
    refine List.mem_filter.mpr ⟨he, ?_⟩
    rw [hk e he] at hne
    simpa using hne

/-- C8 on a store with two subscriptions, deleting one of them. -/
theorem deleteFeed_spec_witness :
    Reachable anyParse twoFeeds ∧
    (deleteFeed (some bodyU) twoFeeds).1 = .json { url := "", read := false, items := [] } ∧
    (deleteFeed (some bodyU) twoFeeds).2.get bodyU.url = none ∧
    (∀ g ∈ listSubscribedFeeds (deleteFeed (some bodyU) twoFeeds).2, g.url ≠ bodyU.url) ∧
    (∀ k : String, k ≠ bodyU.url → (deleteFeed (some bodyU) twoFeeds).2.get k = twoFeeds.get k) ∧
    (∀ g ∈ listSubscribedFeeds twoFeeds, g.url ≠ bodyU.url →
      g ∈ listSubscribedFeeds (deleteFeed (some bodyU) twoFeeds).2) :=
  have hr : Reachable anyParse twoFeeds :=
    Reachable.subscribe parserOnlyA _ _
      (Reachable.subscribe parserABC _ [] Reachable.empty (fun _ _ _ => trivial))
      (fun _ _ _ => trivial)
  ⟨hr, deleteFeed_spec twoFeeds bodyU hr⟩

/-! ## One item per title (C5) -/

theorem discovered_titles (items : List FeedItem) (parsedItems : List ParsedItem) :
    (discovered items parsedItems).map (·.title) =
      (parsedItems.filter (fun p => decide (p.title ∉ items.map (·.title)))).map (·.title) := by
  unfold discovered
  rw [List.map_map]
  rfl

theorem titles_nodup_append_discovered (items : List FeedItem) (parsedItems : List ParsedItem)
    (hi : (items.map (·.title)).Nodup) (hp : distinctTitles parsedItems) :
    ((items ++ discovered items parsedItems).map (·.title)).Nodup := by
  rw [List.map_append, List.nodup_append]
  refine ⟨hi, ?_, ?_⟩
  · rw [discovered_titles]
    exact List.Nodup.sublist (List.Sublist.map _ (List.filter_sublist _)) hp
  · intro t ht hd
    rw [discovered_titles] at hd
    obtain ⟨p, hpm, rfl⟩ := List.mem_map.mp hd
    have := (List.mem_filter.mp hpm).2
    simp only [decide_eq_true_eq] at this
    exact this ht

theorem reachable_titlesUnique (m : FeedMap) (h : Reachable distinctTitles m) :
    m.TitlesUnique := by
  induction h with
  | empty => intro e he; simp at he
  | subscribe fp body m _ hok ih =>
      unfold subscribeFeed parseAndAddFeed
      cases body with
      | none => exact ih
      | some feed =>
          simp only []
          cases hfp : fp feed.url with
          | error e => exact ih
          | ok parsedItems =>
              intro e he
              rcases mem_set m _ _ e he with h1 | h1
              · exact ih e h1
              · rw [h1]
                have := hok _ _ hfp
                simpa [distinctTitles, newFeedItem, Function.comp_def] using this
  | delete body m _ ih =>
      unfold deleteFeed
      cases body with
      | none => exact ih
      | some feed =>
          intro e he
          exact ih e (List.mem_of_mem_filter he)
  | markRead body m _ ih =>
      unfold markItemRead
      cases body with
      | none => exact ih
      | some payload =>
          simp only []
          cases hg : m.get payload.url with
          | none => exact ih
          | some feed =>
              intro e he
              rcases mem_set m _ _ e he with h1 | h1
              · exact ih e h1
              · rw [h1]
                simp only [markLoop_titles]
                exact ih _ (mem_of_get m _ _ hg)
  | refresh fp m hm hok ih =>
      rw [updateFeeds_eq_map fp m (reachable_wf _ m hm)]
      intro e he
      obtain ⟨e0, he0, rfl⟩ := List.mem_map.mp he
      simp only [refreshed_items]
      cases hfp : fp e0.1 with
      | error err => exact ih e0 he0
      | ok parsedItems =>
          exact titles_nodup_append_discovered _ _ (ih e0 he0) (hok _ _ hfp)

/-- C5 as stated fails: from the empty store, subscribing `u` when upstream has `[A]` and
refreshing when upstream lists the new title `C` twice leaves two items titled `C` in the
feed; and a feed subscribed when upstream lists `C` twice holds two items titled `C`, which
a refresh pass keeps. -/
theorem titles_repeat_after_refresh :
    (Reachable anyParse storeA ∧
      (updateFeeds parserCC storeA).get "u" =
        some { url := "u", read := false,
               items := [{ title := "A", link := "a2", read := false },
                         { title := "C", link := "c1", read := false },
                         { title := "C", link := "c2", read := false }] } ∧
      ¬ (["A", "C", "C"] : List String).Nodup) ∧
    (Reachable anyParse storeCC ∧
      (updateFeeds parserCC storeCC).get "u" =
        some { url := "u", read := false,
               items := [{ title := "C", link := "c1", read := false },
                         { title := "C", link := "c2", read := false }] } ∧
      ¬ (["C", "C"] : List String).Nodup) :=
  ⟨⟨Reachable.subscribe parserOnlyA (some bodyU) [] Reachable.empty (fun _ _ _ => trivial),
      by decide, by decide⟩,
    ⟨Reachable.subscribe parserCC (some bodyU) [] Reachable.empty (fun _ _ _ => trivial),
      by decide, by decide⟩⟩

/-- C5, amended: when no list the parser returns repeats a title, every feed of every store
reachable from the empty store by subscribe, delete, markRead and refresh steps holds at
most one item per title. -/
theorem titles_unique_of_distinct_parses (m : FeedMap) (u : String) (f : Feed)
    (hr : Reachable distinctTitles m) (hu : m.get u = some f) :
    (f.items.map (·.title)).Nodup :=
  reachable_titlesUnique m hr (u, f) (mem_of_get m u f hu)

/-- C5, amended, after subscribing `u` (upstream `[A]`) and one refresh (upstream
`[A, B, C]`). -/
theorem titles_unique_of_distinct_parses_witness :
    Reachable distinctTitles (updateFeeds parserABC storeA) ∧
    (updateFeeds parserABC storeA).get "u" =
      some { url := "u", read := false,
             items := [{ title := "A", link := "a2", read := false },
                       { title := "B", link := "b1", read := false },
                       { title := "C", link := "c1", read := false }] } ∧
    (["A", "B", "C"] : List String).Nodup :=
  have hA : ∀ (u : String) (parsed : List ParsedItem),
      parserOnlyA u = .ok parsed → distinctTitles parsed := by
    intro u parsed h
    cases h
    simp [distinctTitles]
  have hABC : ∀ (u : String) (parsed : List ParsedItem),
      parserABC u = .ok parsed → distinctTitles parsed := by
    intro u parsed h
    cases h
    simp [distinctTitles]
  have hr : Reachable distinctTitles (updateFeeds parserABC storeA) :=
    Reachable.refresh parserABC storeA
      (Reachable.subscribe parserOnlyA (some bodyU) [] Reachable.empty hA) hABC
  ⟨hr, by decide, titles_unique_of_distinct_parses (updateFeeds parserABC storeA) "u"
    { url := "u", read := false,
      items := [{ title := "A", link := "a2", read := false },
                { title := "B", link := "b1", read := false },
                { title := "C", link := "c1", read := false }] } hr (by decide)⟩

/-! ## The parser and the lock (C10) -/

theorem parseAndAddFeedEvents_snd (fp : Parser) (url : String) (m : FeedMap) :
    (parseAndAddFeedEvents fp url m).2 = parseAndAddFeed fp url m := by
  unfold parseAndAddFeedEvents parseAndAddFeed
  cases fp url <;> rfl

theorem updateFeedEvents_foldl (fp : Parser) (ks : List String) (ev : List Event)
    (m : FeedMap) :
    ks.foldl (updateFeedEvents fp) (ev, m) =
      (ev ++ ks.map Event.parseURL, ks.foldl (updateFeed fp) m) := by
  induction ks generalizing ev m with
  | nil => simp
  | cons k rest ih => simp [updateFeedEvents, ih]

theorem updateFeedsEvents_snd (fp : Parser) (m : FeedMap) :
    (updateFeedsEvents fp m).2 = updateFeeds fp m := by
  unfold updateFeedsEvents updateFeeds
  rw [updateFeedEvents_foldl]

theorem updateFeedsEvents_fst (fp : Parser) (m : FeedMap) :
    (updateFeedsEvents fp m).1 =
      Event.lock :: (m.keys.map Event.parseURL ++ [Event.unlock]) := by
  unfold updateFeedsEvents
  rw [updateFeedEvents_foldl]
  simp

/-- C10 on the code: `parseAndAddFeed` calls the parser before it takes the lock, but
`updateFeeds` takes the writer lock first and calls the parser for every key before it
releases it, so on every non-empty map a refresh pass parses while the lock is held. -/
theorem updateFeeds_parses_under_lock (fp : Parser) (k : String) (f : Feed) (rest : FeedMap) :
    (∀ (u : String) (m : FeedMap),
      parsesUnderLock false (parseAndAddFeedEvents fp u m).1 = false) ∧
    (updateFeedsEvents fp ((k, f) :: rest)).1 =
      Event.lock :: Event.parseURL k :: (rest.keys.map Event.parseURL ++ [Event.unlock]) ∧
    parsesUnderLock false (updateFeedsEvents fp ((k, f) :: rest)).1 = true ∧
    (updateFeedsEvents fp ((k, f) :: rest)).2 = updateFeeds fp ((k, f) :: rest) := by
  refine ⟨?_, ?_, ?_, updateFeedsEvents_snd fp _⟩
  · intro u m
    unfold parseAndAddFeedEvents
    cases fp u <;> simp [parsesUnderLock]
  · rw [updateFeedsEvents_fst]
    simp [FeedMap.keys]
  · rw [updateFeedsEvents_fst]
    simp [FeedMap.keys, parsesUnderLock]

end RssReader
